import Mathlib

/-! # Verification of the Lua obfuscator (src/api/obfuscate.js)

Shallow embedding of the request handler and its transformation function
`simpleObfuscate` (source lines 137-188 of the robust handler), together
with proofs about the claims of the specification.

Strings are modelled as `List Char` (sequences of Unicode scalar values);
the wrapper functions convert from Lean `String`.  Scanners that advance
by a variable number of characters take a fuel argument (always called
with the length of the scanned list, which suffices because every
recursive call consumes at least one character); this keeps every
definition structurally recursive so that the kernel can evaluate it. -/

set_option maxRecDepth 100000

namespace Obf

/-- Whitespace per the JavaScript regex class `\s` and `String.prototype.trim`
(used by the source at the comment regex, the minifier `\s+` and `trim`,
and the POST handler's `raw.trim()`). -/
def jsWs (c : Char) : Bool :=
  c == ' ' || c == '\t' || c == '\n' || c == '\r' || c.toNat == 0x0B || c.toNat == 0x0C ||
  c.toNat == 0xA0 || c.toNat == 0x1680 || (0x2000 ≤ c.toNat && c.toNat ≤ 0x200A) ||
  c.toNat == 0x2028 || c.toNat == 0x2029 || c.toNat == 0x202F || c.toNat == 0x205F ||
  c.toNat == 0x3000 || c.toNat == 0xFEFF

/-- Line terminators, the characters the JavaScript regex `.` does not match. -/
def lineTerm (c : Char) : Bool :=
  c == '\n' || c == '\r' || c.toNat == 0x2028 || c.toNat == 0x2029

/-- Word characters per the JavaScript regex `\w` and `\b` (`[A-Za-z0-9_]`). -/
def isWordChar (c : Char) : Bool := c.isAlphanum || c == '_'

/-- First character of a Lua-ish identifier, per the source regex `[a-zA-Z_]`. -/
def isIdentStart (c : Char) : Bool := c.isAlpha || c == '_'

/-- Greedy span: maximal prefix satisfying `p`, and the rest. -/
def spanP (p : Char → Bool) : List Char → List Char × List Char
  | [] => ([], [])
  | c :: t =>
    if p c then
      let r := spanP p t
      (c :: r.1, r.2)
    else ([], c :: t)

/-- Whether `p` occurs as a contiguous subsequence of the list. -/
def containsSeq (p : List Char) : List Char → Bool
  | [] => p.isEmpty
  | c :: t => p.isPrefixOf (c :: t) || containsSeq p t

/-- Split on the newline character, like JavaScript `split('\n')`
(the empty string yields one empty piece). -/
def splitNl : List Char → List (List Char)
  | [] => [[]]
  | c :: t =>
    if c == '\n' then [] :: splitNl t
    else
      match splitNl t with
      | h :: r => (c :: h) :: r
      | [] => [[c]]

/-- Join with newlines, like JavaScript `join('\n')`. -/
def joinNl : List (List Char) → List Char
  | [] => []
  | [x] => x
  | x :: r => x ++ '\n' :: joinNl r

/-! ## Stage 1: string-literal extraction (source line 142)

Regex `("(?:\\.|[^\\"])*"|'(?:\\.|[^\\'])*')`, global replace with a
callback that pushes the matched literal and substitutes `__STR<idx>__`. -/

/-- Match the body of a quoted literal after its opening quote `q`:
backslash followed by any non-line-terminator is consumed as an escape,
an unescaped `q` closes.  Returns the matched body (closing quote
included) and the rest, or `none` when the regex alternative fails. -/
def scanStrBody (q : Char) : List Char → Option (List Char × List Char)
  | [] => none
  | c :: rest =>
    if c == '\\' then
      match rest with
      | [] => none
      | d :: rest2 =>
        if lineTerm d then none
        else
          match scanStrBody q rest2 with
          | some (b, r) => some ('\\' :: d :: b, r)
          | none => none
    else if c == q then some ([q], rest)
    else
      match scanStrBody q rest with
      | some (b, r) => some (c :: b, r)
      | none => none

/-- Decimal digits of a number, for building `__STR<idx>__`. -/
def natDigits (n : Nat) : List Char := (Nat.repr n).data

/-- The placeholder substituted for the literal of index `i`. -/
def placeholderOf (i : Nat) : List Char :=
  "__STR".data ++ natDigits i ++ "__".data

/-- The global scan of stage 1: at each position try a double- or
single-quoted literal (the regex alternation dispatches on the quote
character); on a match, emit a placeholder and store the literal; on a
failed attempt or any other character, copy one character. -/
def extractGo : Nat → Nat → List Char → List Char × List (List Char)
  | 0, _, l => (l, [])
  | _ + 1, _, [] => ([], [])
  | fuel + 1, i, c :: rest =>
    if c == '"' || c == '\'' then
      match scanStrBody c rest with
      | some (body, rest2) =>
        let res := extractGo fuel (i + 1) rest2
        (placeholderOf i ++ res.1, (c :: body) :: res.2)
      | none =>
        let res := extractGo fuel i rest
        (c :: res.1, res.2)
    else
      let res := extractGo fuel i rest
      (c :: res.1, res.2)

/-! ## Stage 2: comment removal (source lines 148-149) -/

/-- Find the first `]]` (the non-greedy `[\s\S]*?\]\]`), returning what
follows it. -/
def findCloseBr : List Char → Option (List Char)
  | [] => none
  | ']' :: ']' :: t => some t
  | _ :: t => findCloseBr t

/-- Global removal of `--[[ ... ]]` block comments
(regex `--\[\[[\s\S]*?\]\]` replaced by the empty string). -/
def removeBlockGo : Nat → List Char → List Char
  | 0, l => l
  | _ + 1, [] => []
  | fuel + 1, c :: rest =>
    if "--[[".data.isPrefixOf (c :: rest) then
      match findCloseBr ((c :: rest).drop 4) with
      | some rest2 => removeBlockGo fuel rest2
      | none => c :: removeBlockGo fuel rest
    else c :: removeBlockGo fuel rest

/-- The part of the line-comment regex after the `(^|\n)` anchor:
`\s*--.*(?=\n|$)`.  Returns the unconsumed rest (which starts at the
lookahead `\n`, or is empty at end of input) on a match. -/
def lineMatchAfterAnchor (l : List Char) : Option (List Char) :=
  let s1 := spanP jsWs l
  if "--".data.isPrefixOf s1.2 then
    let s3 := spanP (fun c => !lineTerm c) (s1.2.drop 2)
    match s3.2 with
    | [] => some []
    | c :: t => if c == '\n' then some (c :: t) else none
  else none

/-- Global replacement of `(^|\n)\s*--.*(?=\n|$)` by a bare `'\n'`
(source line 149).  The `Bool` records whether we are at the very start
of the string, where the `^` alternative applies. -/
def removeLineGo : Nat → Bool → List Char → List Char
  | 0, _, l => l
  | fuel + 1, atStart, l =>
    if atStart then
      match lineMatchAfterAnchor l with
      | some r => '\n' :: removeLineGo fuel false r
      | none =>
        match l with
        | [] => []
        | c :: rest => c :: removeLineGo fuel false rest
    else
      match l with
      | [] => []
      | c :: rest =>
        if c == '\n' then
          match lineMatchAfterAnchor rest with
          | some r => '\n' :: removeLineGo fuel false r
          | none => c :: removeLineGo fuel false rest
        else c :: removeLineGo fuel false rest

/-! ## Stage 3: local-identifier collection (source lines 152-155)

Regex `\blocal\s+([a-zA-Z_][a-zA-Z0-9_]*)`, iterated with `exec`; the
captured names are added to a `Set` (insertion order, duplicates
ignored). -/

/-- Scan for `\blocal\s+<ident>` matches; `prevW` tracks whether the
previous character is a word character (for the `\b`). -/
def collectGo : Nat → Bool → List Char → List (List Char)
  | 0, _, _ => []
  | _ + 1, _, [] => []
  | fuel + 1, prevW, c :: rest =>
    if !prevW && "local".data.isPrefixOf (c :: rest) then
      let s2 := spanP jsWs ((c :: rest).drop 5)
      if !s2.1.isEmpty then
        match s2.2 with
        | d :: r3 =>
          if isIdentStart d then
            let s4 := spanP isWordChar r3
            (d :: s4.1) :: collectGo fuel true s4.2
          else collectGo fuel (isWordChar c) rest
        | [] => collectGo fuel (isWordChar c) rest
      else collectGo fuel (isWordChar c) rest
    else collectGo fuel (isWordChar c) rest

/-- Insertion-order deduplication, the behaviour of a JavaScript `Set`. -/
def dedupGo (seen : List (List Char)) : List (List Char) → List (List Char)
  | [] => []
  | n :: t => if seen.contains n then dedupGo seen t else n :: dedupGo (n :: seen) t

/-! ## Stage 4: renaming (source lines 158-167) -/

/-- The alias alphabet `'abcdefghijklmnopqrstuvwxyz'`. -/
def alphaChars : List Char := "abcdefghijklmnopqrstuvwxyz".data

/-- The alias assigned to the name of (0-based) discovery index `k`:
`'_' + alpha[k % 26]` (source line 162). -/
def aliasFor (k : Nat) : List Char := '_' :: [alphaChars.getD (k % 26) 'a']

/-- The one property name for which assignment into a plain JavaScript
object literal is a silent no-op: `shortNames["__proto__"] = v` with a
string `v` invokes the inherited `Object.prototype.__proto__` setter,
which ignores non-object values and creates no own property, so
`Object.entries` never lists it. -/
def protoKey : List Char := "__proto__".data

/-- The `shortNames` map as an association list in insertion order of
own-property creation, built with the running counter `idx` of source
lines 160-163.  The counter `idx++` advances for every name (the
right-hand side is evaluated before the assignment), but the key
`__proto__` produces no entry (see `protoKey`). -/
def shortNamesGo (k : Nat) : List (List Char) → List (List Char × List Char)
  | [] => []
  | n :: t =>
    if n = protoKey then shortNamesGo (k + 1) t
    else (n, aliasFor k) :: shortNamesGo (k + 1) t

def shortNamesOf (names : List (List Char)) : List (List Char × List Char) :=
  shortNamesGo 0 names

/-- `true` when the head (if any) is a word character; the value of
`\w`-ness just right of a position, with end of string counting as
non-word. -/
def headIsWord : List Char → Bool
  | [] => false
  | c :: _ => isWordChar c

/-- `\w`-ness of the last character of a pattern (used for the trailing
`\b`); `dflt` is returned for the empty pattern. -/
def lastIsWordOf (o : List Char) (dflt : Bool) : Bool :=
  match o.getLast? with
  | some c => isWordChar c
  | none => dflt

/-- Global replacement of `\b<o>\b` by `r`, matching on the original
string left to right (source lines 164-167). -/
def replaceWordGo : Nat → List Char → List Char → Bool → List Char → List Char
  | 0, _, _, _, l => l
  | _ + 1, _, _, _, [] => []
  | fuel + 1, o, r, prevW, c :: rest =>
    if !o.isEmpty && o.isPrefixOf (c :: rest) &&
        (prevW != headIsWord (c :: rest)) &&
        (lastIsWordOf o prevW != headIsWord ((c :: rest).drop o.length)) then
      r ++ replaceWordGo fuel o r (lastIsWordOf o prevW) ((c :: rest).drop o.length)
    else c :: replaceWordGo fuel o r (isWordChar c) rest

/-! ## Stage 5: minification (source lines 170-174) -/

/-- `replace(/\s+/g, ' ')`: collapse every whitespace run to one space. -/
def collapseWsGo : Bool → List Char → List Char
  | _, [] => []
  | prevWs, c :: t =>
    if jsWs c then
      if prevWs then collapseWsGo true t else ' ' :: collapseWsGo true t
    else c :: collapseWsGo false t

def collapseWs (l : List Char) : List Char := collapseWsGo false l

/-- Drop a trailing whitespace run. -/
def dropTrailingWs : List Char → List Char
  | [] => []
  | c :: t =>
    match dropTrailingWs t with
    | [] => if jsWs c then [] else [c]
    | r => c :: r

/-- JavaScript `trim()`: strip the leading and the trailing whitespace
run. -/
def trimWs (l : List Char) : List Char :=
  dropTrailingWs (l.dropWhile jsWs)

/-- Stage 5: split on newlines, collapse and trim each line, drop empty
lines, rejoin. -/
def minifyChars (l : List Char) : List Char :=
  joinNl (((splitNl l).map (fun ln => trimWs (collapseWs ln))).filter
    (fun ln => !ln.isEmpty))

/-! ## Stage 6: base64 re-encoding (source lines 177-185) -/

/-- One global replacement of a fixed two-character pattern, the
semantics of each `.replace(/\\x/g, c)` inside `toBase64`. -/
def replaceAll2 (a b : Char) (rep : List Char) : List Char → List Char
  | [] => []
  | [c] => [c]
  | c :: d :: t =>
    if c == a && d == b then rep ++ replaceAll2 a b rep t
    else c :: replaceAll2 a b rep (d :: t)

/-- The six sequential global replacements of `toBase64` (source lines
180-181), applied in source order: `\\n`, `\\r`, `\\t`, `\\'`, `\\"`,
then `\\\\`. -/
def unescapeSeq (l : List Char) : List Char :=
  replaceAll2 '\\' '\\' ['\\'] (replaceAll2 '\\' '"' ['"']
    (replaceAll2 '\\' '\'' ['\''] (replaceAll2 '\\' 't' ['\t']
      (replaceAll2 '\\' 'r' ['\r'] (replaceAll2 '\\' 'n' ['\n'] l)))))

/-- UTF-8 bytes of one scalar value (`Buffer.from(s, 'utf8')`). -/
def utf8Char (c : Char) : List Nat :=
  let n := c.toNat
  if n < 0x80 then [n]
  else if n < 0x800 then [0xC0 + n / 64, 0x80 + n % 64]
  else if n < 0x10000 then [0xE0 + n / 4096, 0x80 + (n / 64) % 64, 0x80 + n % 64]
  else [0xF0 + n / 262144, 0x80 + (n / 4096) % 64, 0x80 + (n / 64) % 64, 0x80 + n % 64]

def utf8Enc : List Char → List Nat
  | [] => []
  | c :: t => utf8Char c ++ utf8Enc t

/-- The base64 alphabet. -/
def b64Alpha : List Char :=
  "ABCDEFGHIJKLMNOPQRSTUVWXYZabcdefghijklmnopqrstuvwxyz0123456789+/".data

def b64Char (n : Nat) : Char := b64Alpha.getD n 'A'

/-- Standard base64 with `=` padding (`Buffer.toString('base64')`). -/
def base64enc : List Nat → List Char
  | [] => []
  | [a] => [b64Char (a / 4), b64Char ((a % 4) * 16), '=', '=']
  | [a, b] => [b64Char (a / 4), b64Char ((a % 4) * 16 + b / 16), b64Char ((b % 16) * 4), '=']
  | a :: b :: c :: rest =>
    b64Char (a / 4) :: b64Char ((a % 4) * 16 + b / 16) ::
      b64Char ((b % 16) * 4 + c / 64) :: b64Char (c % 64) :: base64enc rest

/-- `toBase64` (source lines 177-183): strip the surrounding quotes
(`slice(1, -1)`), apply the six replacements, base64 the UTF-8 bytes. -/
def toBase64C (lit : List Char) : List Char :=
  base64enc (utf8Enc (unescapeSeq ((lit.drop 1).dropLast)))

/-- The replacement text for one placeholder: `__B64("<base64>")`. -/
def b64CallOf (lit : List Char) : List Char :=
  "__B64(\"".data ++ toBase64C lit ++ "\")".data

/-- Number("<digits>") for the captured `\d+`. -/
def digitsToNat (ds : List Char) : Nat :=
  ds.foldl (fun a c => a * 10 + (c.toNat - 48)) 0

/-- The stage-6 global replacement of `__STR(\d+)__` (source line 185).
Looking up an index outside the literal table models
`toBase64(undefined)`, which throws: the result is `none`. -/
def stage6Go : Nat → List (List Char) → List Char → Option (List Char)
  | 0, _, l => some l
  | _ + 1, _, [] => some []
  | fuel + 1, strs, c :: rest =>
    if "__STR".data.isPrefixOf (c :: rest) then
      let s1 := spanP Char.isDigit ((c :: rest).drop 5)
      if !s1.1.isEmpty && "__".data.isPrefixOf s1.2 then
        match strs.get? (digitsToNat s1.1) with
        | some lit =>
          match stage6Go fuel strs (s1.2.drop 2) with
          | some out => some (b64CallOf lit ++ out)
          | none => none
        | none => none
      else
        match stage6Go fuel strs rest with
        | some out => some (c :: out)
        | none => none
    else
      match stage6Go fuel strs rest with
      | some out => some (c :: out)
      | none => none

/-- Whether the stage-6 scan, run over `l`, matches at least one
placeholder token `__STR<digits>__`. -/
def hasToken : Nat → List Char → Bool
  | 0, _ => false
  | _ + 1, [] => false
  | fuel + 1, c :: rest =>
    if "__STR".data.isPrefixOf (c :: rest) then
      let s1 := spanP Char.isDigit ((c :: rest).drop 5)
      if !s1.1.isEmpty && "__".data.isPrefixOf s1.2 then true
      else hasToken fuel rest
    else hasToken fuel rest

/-- Whether every placeholder token matched by the stage-6 scan has an
index below `n`, the size of the literal table. -/
def tokensOk (n : Nat) : Nat → List Char → Bool
  | 0, _ => true
  | _ + 1, [] => true
  | fuel + 1, c :: rest =>
    if "__STR".data.isPrefixOf (c :: rest) then
      let s1 := spanP Char.isDigit ((c :: rest).drop 5)
      if !s1.1.isEmpty && "__".data.isPrefixOf s1.2 then
        decide (digitsToNat s1.1 < n) && tokensOk n fuel (s1.2.drop 2)
      else tokensOk n fuel rest
    else tokensOk n fuel rest

/-! ## The assembled transformer (source lines 137-188) -/

def extractStage (l : List Char) : List Char × List (List Char) :=
  extractGo l.length 0 l

def blockStage (l : List Char) : List Char := removeBlockGo l.length l

def lineStage (l : List Char) : List Char := removeLineGo l.length true l

def commentStage (l : List Char) : List Char := lineStage (blockStage l)

/-- The distinct local names, in order of first occurrence. -/
def collectLocals (l : List Char) : List (List Char) :=
  dedupGo [] (collectGo l.length false l)

/-- Stage 4 applied to the code: one word-boundary replacement per
collected name, in discovery order. -/
def renameStage (l : List Char) : List Char :=
  (shortNamesOf (collectLocals l)).foldl
    (fun c p => replaceWordGo c.length p.1 p.2 false c) l

/-- The code just before stage 6: stages 1-5 applied in order. -/
def preStage6 (l : List Char) : List Char :=
  minifyChars (renameStage (commentStage (extractStage l).1))

def stage6 (strs : List (List Char)) (l : List Char) : Option (List Char) :=
  stage6Go l.length strs l

/-- The whole pipeline on a character list. -/
def obfChars (l : List Char) : Option (List Char) :=
  stage6 (extractStage l).2 (preStage6 l)

/-- `simpleObfuscate` (source lines 137-188).  `none` models a thrown
exception; `if (!code) return ''` short-circuits the empty string. -/
def simpleObfuscate (code : String) : Option String :=
  if code = "" then some ""
  else (obfChars code.data).map (fun l => String.mk l)

/-! ## The request handler (source lines 109-258)

The model keeps the status code and body of the response; the CORS and
content-type headers, which no claim mentions, are omitted except for
the attachment flag of the POST success response.  The diagnostic
message of the 500 response (`String(err.message)`) is abstracted. -/

/-- The Lua base64 decoder source, the template literal `luaB64`
(source lines 191-206), transcribed verbatim (note the leading and
trailing newline of the template literal). -/
def luaB64Str : String :=
  "\nlocal function __B64(s)\n  local b='ABCDEFGHIJKLMNOPQRSTUVWXYZabcdefghijklmnopqrstuvwxyz0123456789+/'\n  s=s:gsub('[^'..b..'=]','')\n  return (s:gsub('.',function(x)\n    if x=='=' then return '' end\n    local r,f='',(b:find(x)-1)\n    for i=6,1,-1 do r=r..(f%2^i-f%2^(i-1)>0 and '1' or '0') end\n    return r\n  end):gsub('%d%d%d%d%d%d%d%d',function(x)\n    local c=0\n    for i=1,8 do c=c+(x:sub(i,i)=='1' and 2^(8-i) or 0) end\n    return string.char(c)\n  end))\nend\n"

/-- The banner, the constant `header` (source line 208). -/
def headerStr : String := "--[[ Made By Hiroshi ]]---- Obfuscated By Hiroshi\n\n"

/-- The fixed prefix of every successful response body:
`header + luaB64 + '\n'` (source lines 215 and 242). -/
def bannerPreamble : String := headerStr ++ luaB64Str ++ "\n"

/-- JSON values, for the parsed POST body. -/
inductive Json where
  | null
  | bool (b : Bool)
  | num (n : Int)
  | str (s : String)
  | arr (elems : List Json)
  | obj (fields : List (String × Json))

/-- JSON string escaping as `JSON.stringify` performs it (quotes,
backslashes and the common control characters). -/
def jsonEscapeChar (c : Char) : List Char :=
  if c == '"' then ['\\', '"']
  else if c == '\\' then ['\\', '\\']
  else if c == '\n' then ['\\', 'n']
  else if c == '\r' then ['\\', 'r']
  else if c == '\t' then ['\\', 't']
  else [c]

def jsonEscape (s : String) : String :=
  String.mk (s.data.foldr (fun c acc => jsonEscapeChar c ++ acc) [])

/-- Comma-separated join. -/
def joinComma : List String → String
  | [] => ""
  | [x] => x
  | x :: r => x ++ "," ++ joinComma r

mutual

/-- `JSON.stringify` (needed by the POST branch when the parsed body has
no string `code` field, source line 225). -/
def stringifyV : Json → String
  | .null => "null"
  | .bool true => "true"
  | .bool false => "false"
  | .num n => toString n
  | .str s => "\"" ++ jsonEscape s ++ "\""
  | .arr xs => "[" ++ joinComma (stringifyList xs) ++ "]"
  | .obj fs => "\x7b" ++ joinComma (stringifyFields fs) ++ "\x7d"

def stringifyList : List Json → List String
  | [] => []
  | x :: r => stringifyV x :: stringifyList r

def stringifyFields : List (String × Json) → List String
  | [] => []
  | (k, v) :: r => ("\"" ++ jsonEscape k ++ "\":" ++ stringifyV v) :: stringifyFields r
end

/-- `typeof parsed.code === 'string'` on a parsed JSON value. -/
def Json.codeStr? : Json → Option String
  | .obj fs =>
    match fs.lookup "code" with
    | some (.str s) => some s
    | _ => none
  | _ => none

/-- The POST request body.  `parsedObj fields` models a platform-parsed
JSON object body (line 223: truthy, `typeof 'object'`); `rawStr s`
models a string (or Buffer) body; `absent stream` models an unparsed
body whose raw stream yields `stream` (the `readRawBody` helper, lines
121-134; when the stream yields nothing the 50ms fallback resolves the
empty string). -/
inductive PostBody where
  | parsedObj (fields : List (String × Json))
  | rawStr (s : String)
  | absent (streamData : String)

/-- JavaScript `trim()` on a `String`. -/
def jsTrimStr (s : String) : String := String.mk (trimWs s.data)

/-- Lines 228-235: if the raw text looks like JSON, parse it
(`JSON.parse(raw || '{}')`) and extract `.code` when it is a string;
otherwise keep the raw text.  `jparse` abstracts `JSON.parse` (`none`
models a parse exception, which line 232 swallows). -/
def jsonAdjust (jparse : String → Option Json) (raw : String) : String :=
  match jparse (if raw = "" then "\x7b\x7d" else raw) with
  | some j =>
    match j.codeStr? with
    | some c => c
    | none => raw
  | none => raw

/-- Lines 222-235: recover the raw code text from the POST body. -/
def extractRaw (jparse : String → Option Json) : PostBody → String
  | .parsedObj fields =>
    if fields.length > 0 then
      match fields.lookup "code" with
      | some (.str s) => s
      | _ => stringifyV (.obj fields)
    else jsonAdjust jparse ""
  | .rawStr s => jsonAdjust jparse s
  | .absent d => jsonAdjust jparse d

/-- Response bodies, structurally. -/
inductive RBody where
  | text (s : String) (attachment : Bool)
  | jsonErr (error : String)
  | serverError
  | empty
deriving Repr, DecidableEq

structure HResponse where
  status : Nat
  body : RBody
deriving Repr, DecidableEq

/-- The POST branch (lines 220-248), parametrised by the transformer so
that non-invocation is expressible; `transform` returning `none` models
a thrown exception reaching the outer catch (line 252). -/
def handlePost (transform : String → Option String) (jparse : String → Option Json)
    (b : PostBody) : HResponse :=
  let raw := extractRaw jparse b
  if raw = "" || (jsTrimStr raw).length = 0 then
    ⟨400, .jsonErr "No code provided in POST body"⟩
  else
    match transform raw with
    | some ob => ⟨200, .text (bannerPreamble ++ ob) true⟩
    | none => ⟨500, .serverError⟩

/-- The GET query parameter `code`: absent/falsy (`none`), a single
string, or a repeated parameter (an array). -/
def GetQuery : Type := Option (String ⊕ List String)

/-- Line 212-213: default to the sample when the parameter is absent or
falsy (the empty string is falsy); join an array parameter with `'\n'`
(an array, even empty, is truthy). -/
def getSrc : GetQuery → String
  | none => "print(\"Hello Executor!\")"
  | some (.inl s) => if s = "" then "print(\"Hello Executor!\")" else s
  | some (.inr xs) => String.mk (joinNl (xs.map String.data))

/-- The GET branch (lines 210-218). -/
def handleGet (q : GetQuery) : HResponse :=
  match simpleObfuscate (getSrc q) with
  | some ob => ⟨200, .text (bannerPreamble ++ ob) false⟩
  | none => ⟨500, .serverError⟩

inductive Method where
  | opt
  | get
  | post
  | other (m : String)

structure Request where
  method : Method
  queryCode : GetQuery
  body : PostBody

/-- The whole handler (lines 109-257): OPTIONS preflight, GET, POST,
405 fallthrough. -/
def handler (jparse : String → Option Json) (req : Request) : HResponse :=
  match req.method with
  | .opt => ⟨204, .empty⟩
  | .get => handleGet req.queryCode
  | .post => handlePost simpleObfuscate jparse req.body
  | .other _ => ⟨405, .jsonErr "Method not allowed"⟩

/-- A server processing a sequence of transformer invocations: the state
threaded between invocations holds only the module-scope constants,
which are never written (source lines 191-208 define them `const`).
Each call builds its literal table and rename map afresh inside
`simpleObfuscate`. -/
structure ServerState where
  headerConst : String
  luaB64Const : String

def initState : ServerState := ⟨headerStr, luaB64Str⟩

/-- One invocation: reads the state, never writes it. -/
def serveOne (st : ServerState) (s : String) : ServerState × Option String :=
  (st, simpleObfuscate s)

/-- Sequential processing of many invocations, threading the state. -/
def serveMany (st : ServerState) : List String → List (Option String)
  | [] => []
  | s :: rest =>
    let r := serveOne st s
    r.2 :: serveMany r.1 rest

/-! ## Further definitions used by the claim statements -/

/-- The spec's reading of stage 6, for comparison with the code's
`unescapeSeq`: a single left-to-right decoding pass turning each of the
escape sequences for newline, carriage return, tab, the quote
characters and escaped backslashes into the character it denotes
(anything else is copied unchanged). -/
def specDenoted : List Char → List Char
  | [] => []
  | c :: t =>
    if c = '\\' then
      match t with
      | [] => ['\\']
      | d :: t2 =>
        if d = 'n' then '\n' :: specDenoted t2
        else if d = 'r' then '\r' :: specDenoted t2
        else if d = 't' then '\t' :: specDenoted t2
        else if d = '\'' then '\'' :: specDenoted t2
        else if d = '"' then '"' :: specDenoted t2
        else if d = '\\' then '\\' :: specDenoted t2
        else '\\' :: d :: specDenoted t2
    else c :: specDenoted t

/-- The distinct local names the transformer discovers in an input
string, in order of first occurrence (the content of the `locals` set
when line 161 runs). -/
def localsOfStr (s : String) : List (List Char) :=
  collectLocals (commentStage (extractStage s.data).1)

/-- A 27-local-declaration input, exercising the alias wrap-around. -/
def c4input : String :=
  "local v01 = 0\nlocal v02 = 0\nlocal v03 = 0\nlocal v04 = 0\nlocal v05 = 0\nlocal v06 = 0\nlocal v07 = 0\nlocal v08 = 0\nlocal v09 = 0\nlocal v10 = 0\nlocal v11 = 0\nlocal v12 = 0\nlocal v13 = 0\nlocal v14 = 0\nlocal v15 = 0\nlocal v16 = 0\nlocal v17 = 0\nlocal v18 = 0\nlocal v19 = 0\nlocal v20 = 0\nlocal v21 = 0\nlocal v22 = 0\nlocal v23 = 0\nlocal v24 = 0\nlocal v25 = 0\nlocal v26 = 0\nlocal v27 = 0\n"

/-- No two consecutive whitespace characters. -/
def noWsPair : List Char → Bool
  | [] => true
  | [_] => true
  | a :: b :: t => !(jsWs a && jsWs b) && noWsPair (b :: t)

/-- The head character, when present, is not whitespace. -/
def headNotWs : List Char → Bool
  | [] => true
  | c :: _ => !jsWs c

/-- The well-formedness of one output line: non-empty, no leading or
trailing whitespace, no two consecutive whitespace characters. -/
def lineOkB (l : List Char) : Bool :=
  !l.isEmpty && headNotWs l && headNotWs l.reverse && noWsPair l

/-- The whole-string counterpart: no whitespace at either end and no two
consecutive whitespace characters anywhere (newlines are whitespace). -/
def strOk (l : List Char) : Bool :=
  headNotWs l && headNotWs l.reverse && noWsPair l

/-- Every character is non-whitespace. -/
def allNonWs (l : List Char) : Bool := l.all (fun c => !jsWs c)

/-! # Theorems -/

/-! ## C6: the Hello Executor example -/

/-- C6: for the input `print("Hello Executor!")`, the transformed body is
`print(__B64("SGVsbG8gRXhlY3V0b3Ih"))`: it contains the call
`__B64("SGVsbG8gRXhlY3V0b3Ih")` (the base64 of `Hello Executor!`) and
does not contain `Hello Executor!` verbatim (hence also not the quoted
form). -/
theorem c6_hello_executor :
    simpleObfuscate "print(\"Hello Executor!\")" =
      some "print(__B64(\"SGVsbG8gRXhlY3V0b3Ih\"))" ∧
    base64enc (utf8Enc "Hello Executor!".data) = "SGVsbG8gRXhlY3V0b3Ih".data ∧
    containsSeq "__B64(\"SGVsbG8gRXhlY3V0b3Ih\")".data
      "print(__B64(\"SGVsbG8gRXhlY3V0b3Ih\"))".data = true ∧
    containsSeq "Hello Executor!".data
      "print(__B64(\"SGVsbG8gRXhlY3V0b3Ih\"))".data = false := by
  refine ⟨by decide, by decide, by decide, by decide⟩

/-! ## C7: comment stripping and consistent renaming -/

/-- C7: for the input `-- comment\nlocal x = 1\nprint(x)` the output does
not contain `-- comment`, and `x` is renamed to one and the same alias
at its declaration and its use site, the alias starting with `_`. -/
theorem c7_comment_and_rename :
    ∃ out al, simpleObfuscate "-- comment\nlocal x = 1\nprint(x)" = some out ∧
      containsSeq "-- comment".data out.data = false ∧
      al.data.head? = some '_' ∧
      out = "local " ++ al ++ " = 1\nprint(" ++ al ++ ")" :=
  ⟨"local _a = 1\nprint(_a)", "_a", by decide, by decide, by decide, by decide⟩

/-! ## C9: determinism, no cross-invocation state -/

theorem serveMany_append (st : ServerState) (l1 l2 : List String) :
    serveMany st (l1 ++ l2) = serveMany st l1 ++ serveMany st l2 := by
  induction l1 with
  | nil => simp [serveMany]
  | cons x t ih => simp [serveMany, serveOne, ih]

/-- C9: the transformer is deterministic across invocations: in a server
run threading the (constant) module state through any sequence of calls,
the response to an input depends only on that input — in particular two
invocations on the same string, after arbitrary and possibly different
earlier invocations, produce identical outputs, namely
`simpleObfuscate s`. -/
theorem c9_deterministic (st : ServerState) (pre1 pre2 : List String) (s : String) :
    (serveMany st (pre1 ++ [s])).getLast? = some (simpleObfuscate s) ∧
    (serveMany st (pre1 ++ [s])).getLast? = (serveMany st (pre2 ++ [s])).getLast? := by
  have h : ∀ pre : List String,
      (serveMany st (pre ++ [s])).getLast? = some (simpleObfuscate s) := by
    intro pre
    rw [serveMany_append]
    have h1 : serveMany st [s] = [simpleObfuscate s] := by simp [serveMany, serveOne]
    rw [h1, List.getLast?_concat]
  exact ⟨h pre1, (h pre1).trans (h pre2).symm⟩

/-! ## C1: totality (corrected) -/

/-- C1 counterexample: the transformer does not return a string for every
input.  The input `__STR0__` contains no string literal, so the literal
table is empty, yet stage 6 matches the placeholder-shaped token and
calls `toBase64(strings[0])` = `toBase64(undefined)`, which throws a
TypeError (modelled by `none`). -/
theorem c1_counterexample : simpleObfuscate "__STR0__" = none := by decide

theorem stage6Go_isSome_of_tokensOk (strs : List (List Char)) :
    ∀ fuel l, tokensOk strs.length fuel l = true → (stage6Go fuel strs l).isSome = true := by
  intro fuel
  induction fuel with
  | zero => intro l _; simp [stage6Go]
  | succ fuel ih =>
    intro l h
    match l with
    | [] => simp [stage6Go]
    | c :: rest =>
      simp only [stage6Go, tokensOk] at h ⊢
      split
      next hp =>
        split
        next hp2 =>
          rw [if_pos hp, if_pos hp2, Bool.and_eq_true, decide_eq_true_eq] at h
          obtain ⟨hlt, hrec⟩ := h
          rw [List.get?_eq_get hlt]
          obtain ⟨out, hout⟩ := Option.isSome_iff_exists.mp (ih _ hrec)
          rw [hout]
          rfl
        next hp2 =>
          rw [if_pos hp, if_neg hp2] at h
          obtain ⟨out, hout⟩ := Option.isSome_iff_exists.mp (ih rest h)
          rw [hout]
          rfl
      next hp =>
        rw [if_neg hp] at h
        obtain ⟨out, hout⟩ := Option.isSome_iff_exists.mp (ih rest h)
        rw [hout]
        rfl

/-- C1, amended: the transformer returns a string for every input whose
minified intermediate code carries only placeholder tokens whose index
is below the size of the extracted-literal table (which holds for every
ordinary input but fails for inputs that smuggle placeholder-shaped
text, such as `__STR0__`); the empty input yields the empty output
string. -/
theorem c1_amended :
    simpleObfuscate "" = some "" ∧
    ∀ s : String,
      tokensOk (extractStage s.data).2.length (preStage6 s.data).length
        (preStage6 s.data) = true →
      ∃ out, simpleObfuscate s = some out := by
  refine ⟨by decide, ?_⟩
  intro s h
  by_cases hs : s = ""
  · exact ⟨"", by rw [hs]; decide⟩
  · have h2 := stage6Go_isSome_of_tokensOk (extractStage s.data).2 _ _ h
    rw [Option.isSome_iff_exists] at h2
    obtain ⟨out, hout⟩ := h2
    refine ⟨String.mk out, ?_⟩
    simp [simpleObfuscate, hs, obfChars, stage6, hout]

theorem c1_witness :
    tokensOk (extractStage "print(\"hi\")".data).2.length
      (preStage6 "print(\"hi\")".data).length (preStage6 "print(\"hi\")".data) = true ∧
    ∃ out, simpleObfuscate "print(\"hi\")" = some out :=
  ⟨by decide, c1_amended.2 "print(\"hi\")" (by decide)⟩

/-! ## C8: pure minification for literal-, comment- and local-free input
(corrected) -/

/-- C8 counterexample: `__STR7__` contains no string literal, no comment
and no local declaration, yet the output is not the minified input — the
stage-6 substitution throws on the smuggled placeholder token. -/
theorem c8_counterexample :
    ('"' ∈ "__STR7__".data → False) ∧ ('\'' ∈ "__STR7__".data → False) ∧
    containsSeq "--".data "__STR7__".data = false ∧
    collectGo "__STR7__".data.length false "__STR7__".data = [] ∧
    ¬ simpleObfuscate "__STR7__" = some (String.mk (minifyChars "__STR7__".data)) := by
  exact ⟨by decide, by decide, by decide, by decide, by decide⟩

theorem extractGo_no_quotes : ∀ fuel i l, ¬ '"' ∈ l → ¬ '\'' ∈ l →
    extractGo fuel i l = (l, []) := by
  intro fuel
  induction fuel with
  | zero => intro i l _ _; rfl
  | succ fuel ih =>
    intro i l h1 h2
    match l with
    | [] => rfl
    | c :: rest =>
      have hc1 : ¬ c = '"' := fun e => h1 (by rw [e]; exact List.mem_cons_self _ _)
      have hc2 : ¬ c = '\'' := fun e => h2 (by rw [e]; exact List.mem_cons_self _ _)
      have ht := ih i rest (fun m => h1 (List.mem_cons_of_mem _ m))
        (fun m => h2 (List.mem_cons_of_mem _ m))
      simp [extractGo, hc1, hc2, ht]

theorem containsSeq_of_isPrefixOf {p l : List Char} (h : p.isPrefixOf l = true) :
    containsSeq p l = true := by
  match l with
  | [] =>
    have : p = [] := List.prefix_nil.mp (List.isPrefixOf_iff_prefix.mp h)
    simp [containsSeq, this]
  | c :: t => simp [containsSeq, h]

theorem containsSeq_tail {p : List Char} {c : Char} {t : List Char}
    (h : containsSeq p (c :: t) = false) : containsSeq p t = false := by
  simp only [containsSeq, Bool.or_eq_false_iff] at h
  exact h.2

theorem containsSeq_append_right {p : List Char} :
    ∀ {a b : List Char}, containsSeq p (a ++ b) = false → containsSeq p b = false := by
  intro a
  induction a with
  | nil => intro b h; exact h
  | cons c t ih => intro b h; exact ih (containsSeq_tail h)

theorem not_prefix_of_containsSeq_false {p : List Char} {c : Char} {t : List Char}
    (h : containsSeq p (c :: t) = false) : p.isPrefixOf (c :: t) = false := by
  simp only [containsSeq, Bool.or_eq_false_iff] at h
  exact h.1

theorem dashdash_of_blockOpen {l : List Char}
    (h : "--[[".data.isPrefixOf l = true) : "--".data.isPrefixOf l = true := by
  rw [List.isPrefixOf_iff_prefix] at h ⊢
  exact List.IsPrefix.trans ⟨['[', '['], by decide⟩ h

theorem removeBlockGo_id : ∀ fuel l, containsSeq "--".data l = false →
    removeBlockGo fuel l = l := by
  intro fuel
  induction fuel with
  | zero => intro l _; rfl
  | succ fuel ih =>
    intro l h
    match l with
    | [] => rfl
    | c :: rest =>
      have hp : "--[[".data.isPrefixOf (c :: rest) = false := by
        by_contra hc
        rw [Bool.not_eq_false] at hc
        rw [containsSeq_of_isPrefixOf (dashdash_of_blockOpen hc)] at h
        exact absurd h (by decide)
      simp [removeBlockGo, hp, ih rest (containsSeq_tail h)]

theorem spanP_append (p : Char → Bool) : ∀ l, (spanP p l).1 ++ (spanP p l).2 = l := by
  intro l
  induction l with
  | nil => rfl
  | cons c t ih =>
    by_cases hc : p c
    · simp [spanP, hc, ih]
    · simp [spanP, hc]

theorem lineMatchAfterAnchor_none {l : List Char}
    (h : containsSeq "--".data l = false) : lineMatchAfterAnchor l = none := by
  have hsub : containsSeq "--".data (spanP jsWs l).2 = false := by
    have := spanP_append jsWs l
    exact containsSeq_append_right (by rw [this]; exact h)
  have hp : "--".data.isPrefixOf (spanP jsWs l).2 = false := by
    by_contra hc
    rw [Bool.not_eq_false] at hc
    rw [containsSeq_of_isPrefixOf hc] at hsub
    exact absurd hsub (by decide)
  simp [lineMatchAfterAnchor, hp]

theorem removeLineGo_succ_true (fuel : Nat) (l : List Char) :
    removeLineGo (fuel + 1) true l =
      (match lineMatchAfterAnchor l with
       | some r => '\n' :: removeLineGo fuel false r
       | none =>
         match l with
         | [] => []
         | c :: rest => c :: removeLineGo fuel false rest) := rfl

theorem removeLineGo_succ_false_nil (fuel : Nat) :
    removeLineGo (fuel + 1) false [] = [] := rfl

theorem removeLineGo_succ_false_cons (fuel : Nat) (c : Char) (rest : List Char) :
    removeLineGo (fuel + 1) false (c :: rest) =
      (if c == '\n' then
        match lineMatchAfterAnchor rest with
        | some r => '\n' :: removeLineGo fuel false r
        | none => c :: removeLineGo fuel false rest
      else c :: removeLineGo fuel false rest) := rfl

theorem removeLineGo_id : ∀ fuel b l, containsSeq "--".data l = false →
    removeLineGo fuel b l = l := by
  intro fuel
  induction fuel with
  | zero => intro b l _; rfl
  | succ fuel ih =>
    intro b l h
    cases b with
    | true =>
      rw [removeLineGo_succ_true, lineMatchAfterAnchor_none h]
      match l with
      | [] => rfl
      | c :: rest => exact congrArg _ (ih false rest (containsSeq_tail h))
    | false =>
      match l with
      | [] => rfl
      | c :: rest =>
        have ht := ih false rest (containsSeq_tail h)
        rw [removeLineGo_succ_false_cons]
        by_cases hc : (c == '\n') = true
        · rw [if_pos hc, lineMatchAfterAnchor_none (containsSeq_tail h)]
          exact congrArg _ ht
        · rw [if_neg hc]
          exact congrArg _ ht

theorem stage6Go_id_of_no_token : ∀ fuel strs l, hasToken fuel l = false →
    stage6Go fuel strs l = some l := by
  intro fuel
  induction fuel with
  | zero => intro strs l _; rfl
  | succ fuel ih =>
    intro strs l h
    match l with
    | [] => rfl
    | c :: rest =>
      simp only [stage6Go, hasToken] at h ⊢
      split
      next hp =>
        split
        next hp2 =>
          rw [if_pos hp, if_pos hp2] at h
          exact absurd h (by simp)
        next hp2 =>
          rw [if_pos hp, if_neg hp2] at h
          rw [ih strs rest h]
      next hp =>
        rw [if_neg hp] at h
        rw [ih strs rest h]

/-- C8, amended: for every input with no string literal (no quote
character), no comment (no `--`), no local declaration, and — as the
counterexample forces — no placeholder-shaped token `__STR<digits>__`
left in its minified form, the transformer's output is exactly the
input minified: blank lines removed, lines trimmed, whitespace runs
collapsed to one space. -/
theorem c8_amended (s : String)
    (h1 : ¬ '"' ∈ s.data) (h2 : ¬ '\'' ∈ s.data)
    (h3 : containsSeq "--".data s.data = false)
    (h4 : collectGo s.data.length false s.data = [])
    (h5 : hasToken (minifyChars s.data).length (minifyChars s.data) = false) :
    simpleObfuscate s = some (String.mk (minifyChars s.data)) := by
  by_cases hs : s = ""
  · rw [hs]; decide
  · have hex : extractStage s.data = (s.data, []) :=
      extractGo_no_quotes s.data.length 0 s.data h1 h2
    have hcomment : commentStage s.data = s.data := by
      unfold commentStage blockStage lineStage
      rw [removeBlockGo_id s.data.length s.data h3]
      exact removeLineGo_id s.data.length true s.data h3
    have hlocals : collectLocals s.data = [] := by
      unfold collectLocals
      rw [h4]
      rfl
    have hrename : renameStage s.data = s.data := by
      unfold renameStage
      rw [hlocals]
      rfl
    have hpre : preStage6 s.data = minifyChars s.data := by
      unfold preStage6
      rw [hex, hcomment, hrename]
    unfold simpleObfuscate obfChars stage6
    rw [if_neg hs, hex, hpre, stage6Go_id_of_no_token _ _ _ h5]
    rfl

/-! ## C5: literal re-encoding (corrected) -/

/-- C5 counterexample: for the extracted literal `"\\n"` (quote,
backslash, backslash, n, quote — Lua for a backslash followed by `n`)
the payload the code produces is the base64 of backslash+newline
(`XAo=`), not of the denoted characters backslash+n (`XG4=`): the
sequential replacement of line 180 rewrites the second backslash
together with the `n`. -/
theorem c5_counterexample :
    simpleObfuscate "x = \"\\\\n\"" = some "x = __B64(\"XAo=\")" ∧
    toBase64C "\"\\\\n\"".data = "XAo=".data ∧
    base64enc (utf8Enc (specDenoted (("\"\\\\n\"".data.drop 1).dropLast))) = "XG4=".data ∧
    "XAo=".data ≠ "XG4=".data := by
  exact ⟨by decide, by decide, by decide, by decide⟩

theorem replaceAll2_cons_of_head_ne {a b : Char} {rep : List Char} {c : Char}
    (hc : ¬ c = a) (t : List Char) :
    replaceAll2 a b rep (c :: t) = c :: replaceAll2 a b rep t := by
  match t with
  | [] => rfl
  | d :: t2 =>
    have hg : (c == a && d == b) = false := by simp [hc]
    simp [replaceAll2, hg]

theorem replaceAll2_cons₂_eq (a b : Char) (rep t : List Char) :
    replaceAll2 a b rep (a :: b :: t) = rep ++ replaceAll2 a b rep t := by
  simp [replaceAll2]

theorem replaceAll2_cons₂_ne₂ {a b : Char} {rep : List Char} {c d : Char}
    (hd : ¬ d = b) (t : List Char) :
    replaceAll2 a b rep (c :: d :: t) = c :: replaceAll2 a b rep (d :: t) := by
  have hg : (c == a && d == b) = false := by simp [hd]
  simp [replaceAll2, hg]

theorem unescapeSeq_cons_ne {c : Char} (hc : ¬ c = '\\') (l : List Char) :
    unescapeSeq (c :: l) = c :: unescapeSeq l := by
  unfold unescapeSeq
  simp only [replaceAll2_cons_of_head_ne hc]

theorem unescapeSeq_bs_n (l : List Char) :
    unescapeSeq ('\\' :: 'n' :: l) = '\n' :: unescapeSeq l := by
  unfold unescapeSeq
  rw [replaceAll2_cons₂_eq]
  simp only [List.cons_append, List.nil_append,
    replaceAll2_cons_of_head_ne (show ¬ '\n' = '\\' by decide)]

theorem unescapeSeq_bs_r (l : List Char) :
    unescapeSeq ('\\' :: 'r' :: l) = '\r' :: unescapeSeq l := by
  unfold unescapeSeq
  rw [replaceAll2_cons₂_ne₂ (show ¬ 'r' = 'n' by decide),
    replaceAll2_cons_of_head_ne (show ¬ 'r' = '\\' by decide),
    replaceAll2_cons₂_eq]
  simp only [List.cons_append, List.nil_append,
    replaceAll2_cons_of_head_ne (show ¬ '\r' = '\\' by decide)]

theorem unescapeSeq_bs_t (l : List Char) :
    unescapeSeq ('\\' :: 't' :: l) = '\t' :: unescapeSeq l := by
  unfold unescapeSeq
  rw [replaceAll2_cons₂_ne₂ (show ¬ 't' = 'n' by decide),
    replaceAll2_cons_of_head_ne (show ¬ 't' = '\\' by decide),
    replaceAll2_cons₂_ne₂ (show ¬ 't' = 'r' by decide),
    replaceAll2_cons_of_head_ne (show ¬ 't' = '\\' by decide),
    replaceAll2_cons₂_eq]
  simp only [List.cons_append, List.nil_append,
    replaceAll2_cons_of_head_ne (show ¬ '\t' = '\\' by decide)]

theorem unescapeSeq_bs_q (l : List Char) :
    unescapeSeq ('\\' :: '\'' :: l) = '\'' :: unescapeSeq l := by
  unfold unescapeSeq
  rw [replaceAll2_cons₂_ne₂ (show ¬ '\'' = 'n' by decide),
    replaceAll2_cons_of_head_ne (show ¬ '\'' = '\\' by decide),
    replaceAll2_cons₂_ne₂ (show ¬ '\'' = 'r' by decide),
    replaceAll2_cons_of_head_ne (show ¬ '\'' = '\\' by decide),
    replaceAll2_cons₂_ne₂ (show ¬ '\'' = 't' by decide),
    replaceAll2_cons_of_head_ne (show ¬ '\'' = '\\' by decide),
    replaceAll2_cons₂_eq]
  simp only [List.cons_append, List.nil_append,
    replaceAll2_cons_of_head_ne (show ¬ '\'' = '\\' by decide)]

theorem unescapeSeq_bs_qq (l : List Char) :
    unescapeSeq ('\\' :: '"' :: l) = '"' :: unescapeSeq l := by
  unfold unescapeSeq
  rw [replaceAll2_cons₂_ne₂ (show ¬ '"' = 'n' by decide),
    replaceAll2_cons_of_head_ne (show ¬ '"' = '\\' by decide),
    replaceAll2_cons₂_ne₂ (show ¬ '"' = 'r' by decide),
    replaceAll2_cons_of_head_ne (show ¬ '"' = '\\' by decide),
    replaceAll2_cons₂_ne₂ (show ¬ '"' = 't' by decide),
    replaceAll2_cons_of_head_ne (show ¬ '"' = '\\' by decide),
    replaceAll2_cons₂_ne₂ (show ¬ '"' = '\'' by decide),
    replaceAll2_cons_of_head_ne (show ¬ '"' = '\\' by decide),
    replaceAll2_cons₂_eq]
  simp only [List.cons_append, List.nil_append,
    replaceAll2_cons_of_head_ne (show ¬ '"' = '\\' by decide)]

theorem unescapeSeq_bs_other {d : Char} (hn : ¬ d = 'n') (hr : ¬ d = 'r')
    (htt : ¬ d = 't') (hq : ¬ d = '\'') (hqq : ¬ d = '"') (hbs : ¬ d = '\\')
    (l : List Char) :
    unescapeSeq ('\\' :: d :: l) = '\\' :: d :: unescapeSeq l := by
  unfold unescapeSeq
  rw [replaceAll2_cons₂_ne₂ hn, replaceAll2_cons_of_head_ne hbs,
    replaceAll2_cons₂_ne₂ hr, replaceAll2_cons_of_head_ne hbs,
    replaceAll2_cons₂_ne₂ htt, replaceAll2_cons_of_head_ne hbs,
    replaceAll2_cons₂_ne₂ hq, replaceAll2_cons_of_head_ne hbs,
    replaceAll2_cons₂_ne₂ hqq, replaceAll2_cons_of_head_ne hbs,
    replaceAll2_cons₂_ne₂ hbs, replaceAll2_cons_of_head_ne hbs]

theorem specDenoted_cons_ne {c : Char} (hc : ¬ c = '\\') (t : List Char) :
    specDenoted (c :: t) = c :: specDenoted t := by
  conv_lhs => rw [specDenoted.eq_def]
  simp only [if_neg hc]

theorem unescapeSeq_eq_specDenoted : ∀ (n : Nat) (l : List Char), l.length ≤ n →
    containsSeq ['\\', '\\'] l = false → unescapeSeq l = specDenoted l := by
  intro n
  induction n with
  | zero =>
    intro l hl _
    rw [List.eq_nil_of_length_eq_zero (Nat.le_zero.mp hl)]
    rfl
  | succ n ih =>
    intro l hl h
    match l with
    | [] => rfl
    | c :: t =>
      by_cases hc : c = '\\'
      · subst hc
        match t with
        | [] => rfl
        | d :: t2 =>
          have hd_bs : ¬ d = '\\' := by
            intro e
            subst e
            have hpre := not_prefix_of_containsSeq_false h
            simp [List.isPrefixOf] at hpre
          have ht2 : containsSeq ['\\', '\\'] t2 = false :=
            containsSeq_tail (containsSeq_tail h)
          have hlen : t2.length ≤ n := by
            simp only [List.length_cons] at hl
            omega
          have hsd : specDenoted ('\\' :: d :: t2) =
              (if d = 'n' then '\n' :: specDenoted t2
               else if d = 'r' then '\r' :: specDenoted t2
               else if d = 't' then '\t' :: specDenoted t2
               else if d = '\'' then '\'' :: specDenoted t2
               else if d = '"' then '"' :: specDenoted t2
               else if d = '\\' then '\\' :: specDenoted t2
               else '\\' :: d :: specDenoted t2) := by
            rw [specDenoted]
            rw [if_pos rfl]
          by_cases hn : d = 'n'
          · subst hn
            rw [unescapeSeq_bs_n, ih t2 hlen ht2, hsd, if_pos rfl]
          · by_cases hr : d = 'r'
            · subst hr
              rw [unescapeSeq_bs_r, ih t2 hlen ht2, hsd, if_neg hn, if_pos rfl]
            · by_cases htt : d = 't'
              · subst htt
                rw [unescapeSeq_bs_t, ih t2 hlen ht2, hsd, if_neg hn, if_neg hr,
                  if_pos rfl]
              · by_cases hq : d = '\''
                · subst hq
                  rw [unescapeSeq_bs_q, ih t2 hlen ht2, hsd, if_neg hn, if_neg hr,
                    if_neg htt, if_pos rfl]
                · by_cases hqq : d = '"'
                  · subst hqq
                    rw [unescapeSeq_bs_qq, ih t2 hlen ht2, hsd, if_neg hn,
                      if_neg hr, if_neg htt, if_neg hq, if_pos rfl]
                  · rw [unescapeSeq_bs_other hn hr htt hq hqq hd_bs,
                      ih t2 hlen ht2, hsd, if_neg hn, if_neg hr, if_neg htt,
                      if_neg hq, if_neg hqq, if_neg hd_bs]
      · have ht : containsSeq ['\\', '\\'] t = false := containsSeq_tail h
        have hlen : t.length ≤ n := by
          simp only [List.length_cons] at hl
          omega
        rw [unescapeSeq_cons_ne hc, ih t hlen ht, specDenoted_cons_ne hc]

/-- C5, amended: for every extracted string literal whose content (the
literal with its surrounding quotes stripped) contains no two
consecutive backslashes, the base64 payload encodes exactly the content
with the escape sequences decoded to the characters they denote.  (The
counterexample shows the restriction is needed: the code's six
sequential global replacements mis-decode a backslash pair followed by
an escape letter.) -/
theorem c5_amended (lit : List Char)
    (h : containsSeq ['\\', '\\'] ((lit.drop 1).dropLast) = false) :
    toBase64C lit = base64enc (utf8Enc (specDenoted ((lit.drop 1).dropLast))) := by
  unfold toBase64C
  rw [unescapeSeq_eq_specDenoted ((lit.drop 1).dropLast).length _ le_rfl h]

theorem c5_witness :
    containsSeq ['\\', '\\'] (("\"a\\nb\"".data.drop 1).dropLast) = false ∧
    toBase64C "\"a\\nb\"".data =
      base64enc (utf8Enc (specDenoted (("\"a\\nb\"".data.drop 1).dropLast))) :=
  ⟨by decide, c5_amended "\"a\\nb\"".data (by decide)⟩

/-! ## C2: blank POST code yields 400 without invoking the Transformer -/

theorem string_eq_empty_of_length_eq_zero (s : String) (h : s.length = 0) : s = "" := by
  cases s with
  | mk data =>
    cases data with
    | nil => rfl
    | cons c t => simp [String.length] at h

/-- C2: for every write request from which no non-blank code string is
recoverable (the recovered raw text trims to the empty string — in
particular a parsed JSON body with `code` equal to the empty string),
the handler responds 400 with the exact JSON error body, and this holds
for every transformer whatsoever: the transformer is never invoked. -/
theorem c2_blank_post (jparse : String → Option Json) (b : PostBody)
    (h : jsTrimStr (extractRaw jparse b) = "") :
    ∀ transform : String → Option String,
      handlePost transform jparse b =
        ⟨400, RBody.jsonErr "No code provided in POST body"⟩ := by
  intro t
  unfold handlePost
  have hlen : (jsTrimStr (extractRaw jparse b)).length = 0 := by rw [h]; rfl
  simp [hlen]

theorem c2_witness :
    jsTrimStr (extractRaw (fun _ => none) (PostBody.parsedObj [("code", Json.str "")])) = "" ∧
    handlePost (fun _ => none) (fun _ => none)
        (PostBody.parsedObj [("code", Json.str "")]) =
      ⟨400, RBody.jsonErr "No code provided in POST body"⟩ :=
  ⟨by decide,
    c2_blank_post (fun _ => none) (PostBody.parsedObj [("code", Json.str "")])
      (by decide) (fun _ => none)⟩

/-! ## C3: every successful response body starts with the banner and the
decoder preamble -/

/-- C3: on both the GET and the POST success path, the response body is
exactly the fixed banner, the fixed Lua base64-decoder preamble and a
separating newline, followed by the transformed body — for every input,
the empty one included. -/
theorem c3_success_body (q : GetQuery) (jparse : String → Option Json)
    (b : PostBody) (ob obp : String) :
    (simpleObfuscate (getSrc q) = some ob →
      handleGet q = ⟨200, RBody.text (bannerPreamble ++ ob) false⟩) ∧
    (jsTrimStr (extractRaw jparse b) ≠ "" →
      simpleObfuscate (extractRaw jparse b) = some obp →
      handlePost simpleObfuscate jparse b =
        ⟨200, RBody.text (bannerPreamble ++ obp) true⟩) := by
  constructor
  · intro h
    unfold handleGet
    rw [h]
  · intro hne h
    unfold handlePost
    have h0 : ¬ extractRaw jparse b = "" := fun e => hne (by rw [e]; rfl)
    have h1 : ¬ (jsTrimStr (extractRaw jparse b)).length = 0 :=
      fun e => hne (string_eq_empty_of_length_eq_zero _ e)
    simp [h0, h1, h]

theorem c3_witness :
    simpleObfuscate (getSrc (some (Sum.inr []))) = some "" ∧
    handleGet (some (Sum.inr [])) = ⟨200, RBody.text (bannerPreamble ++ "") false⟩ ∧
    jsTrimStr (extractRaw (fun _ => none) (PostBody.rawStr "x=1")) ≠ "" ∧
    handlePost simpleObfuscate (fun _ => none) (PostBody.rawStr "x=1") =
      ⟨200, RBody.text (bannerPreamble ++ "x=1") true⟩ :=
  ⟨by decide,
    (c3_success_body (some (Sum.inr [])) (fun _ => none) (PostBody.rawStr "x=1")
      "" "x=1").1 (by decide),
    by decide,
    (c3_success_body (some (Sum.inr [])) (fun _ => none) (PostBody.rawStr "x=1")
      "" "x=1").2 (by decide) (by decide)⟩

/-! ## C4: alias assignment and the 27-name collision (corrected) -/

/-- C4 counterexample: a local named `__proto__` is discovered as the
first (and only) distinct local name, yet the rename map stays empty —
the plain-object assignment is a no-op — and the transformer's output
keeps `__proto__` unrenamed, so the first discovered name is not
assigned the alias `_a` the claim promises it. -/
theorem c4_counterexample :
    (localsOfStr "local __proto__ = 1").get? 0 = some "__proto__".data ∧
    shortNamesOf (localsOfStr "local __proto__ = 1") = [] ∧
    simpleObfuscate "local __proto__ = 1" = some "local __proto__ = 1" := by
  exact ⟨by decide, by decide, by decide⟩

theorem shortNamesGo_lookup_none : ∀ (names : List (List Char)) (st : Nat)
    (name : List Char), ¬ name ∈ names →
    (shortNamesGo st names).lookup name = none := by
  intro names
  induction names with
  | nil => intro st name _; rfl
  | cons n t ih =>
    intro st name hmem
    have hne : ¬ name = n := fun e => hmem (by rw [e]; exact List.mem_cons_self _ _)
    have hnt : ¬ name ∈ t := fun m => hmem (List.mem_cons_of_mem _ m)
    simp only [shortNamesGo]
    by_cases hp : n = protoKey
    · rw [if_pos hp]
      exact ih (st + 1) name hnt
    · rw [if_neg hp]
      have hb : (name == n) = false := by simp [hne]
      simp only [List.lookup, hb]
      exact ih (st + 1) name hnt

theorem shortNamesGo_lookup : ∀ (names : List (List Char)) (st k : Nat)
    (name : List Char), names.Nodup → names.get? k = some name →
    (name ≠ protoKey →
      (shortNamesGo st names).lookup name = some (aliasFor (st + k))) ∧
    (name = protoKey → (shortNamesGo st names).lookup name = none) := by
  intro names
  induction names with
  | nil => intro st k name _ hget; simp at hget
  | cons n t ih =>
    intro st k name hnodup hget
    obtain ⟨hnotmem, hnodt⟩ := List.nodup_cons.mp hnodup
    match k with
    | 0 =>
      have hn : n = name := by simpa using hget
      subst hn
      constructor
      · intro hne
        simp only [shortNamesGo]
        rw [if_neg hne]
        simp [List.lookup]
      · intro heq
        simp only [shortNamesGo]
        rw [if_pos heq]
        exact shortNamesGo_lookup_none t (st + 1) n hnotmem
    | k + 1 =>
      have hget2 : t.get? k = some name := by simpa using hget
      have hmem : name ∈ t := List.get?_mem hget2
      have hne : ¬ name = n := fun e => hnotmem (by rw [← e]; exact hmem)
      have harith : st + 1 + k = st + (k + 1) := by omega
      have IH := ih (st + 1) k name hnodt hget2
      rw [harith] at IH
      constructor
      · intro hnp
        simp only [shortNamesGo]
        by_cases hp : n = protoKey
        · rw [if_pos hp]
          exact IH.1 hnp
        · rw [if_neg hp]
          have hb : (name == n) = false := by simp [hne]
          simp only [List.lookup, hb]
          exact IH.1 hnp
      · intro hp
        simp only [shortNamesGo]
        by_cases hpn : n = protoKey
        · rw [if_pos hpn]
          exact IH.2 hp
        · rw [if_neg hpn]
          have hb : (name == n) = false := by simp [hne]
          simp only [List.lookup, hb]
          exact IH.2 hp

theorem mem_dedupGo : ∀ (l : List (List Char)) (seen : List (List Char)) (x : List Char),
    x ∈ dedupGo seen l → ¬ x ∈ seen := by
  intro l
  induction l with
  | nil => intro seen x h; simp [dedupGo] at h
  | cons n t ih =>
    intro seen x h
    simp only [dedupGo] at h
    by_cases hc : (seen.contains n) = true
    · rw [if_pos hc] at h
      exact ih seen x h
    · rw [if_neg hc] at h
      rcases List.mem_cons.mp h with rfl | hmem
      · exact fun hx => hc (List.elem_iff.mpr hx)
      · exact fun hx => ih (n :: seen) x hmem (List.mem_cons_of_mem _ hx)

theorem dedupGo_nodup : ∀ (l seen : List (List Char)), (dedupGo seen l).Nodup := by
  intro l
  induction l with
  | nil => intro seen; simp [dedupGo]
  | cons n t ih =>
    intro seen
    simp only [dedupGo]
    by_cases hc : (seen.contains n) = true
    · rw [if_pos hc]; exact ih seen
    · rw [if_neg hc]
      refine List.nodup_cons.mpr ⟨?_, ih (n :: seen)⟩
      intro hmem
      exact mem_dedupGo t (n :: seen) n hmem (List.mem_cons_self _ _)

/-- C4, amended: the k-th distinct local name discovered (0-based index
`k`, the claim's k-th name with k 1-based) is mapped by the rename map
to the alias `'_' + alpha[k mod 26]` — except for a name equal to
`__proto__`, for which the plain-object assignment creates no entry
(the alias counter still advances past it) and which is therefore never
renamed.  Aliases are always two characters (never a numeric suffix),
the alias formula wraps around every 26 names, and when 27 or more
distinct names occur the 27th distinct name — a different name than the
1st — is assigned the same alias as the 1st. -/
theorem c4_alias_assignment (s : String) (k : Nat)
    (hk : k < (localsOfStr s).length) :
    (∀ name, (localsOfStr s).get? k = some name →
      (name ≠ protoKey →
        (shortNamesOf (localsOfStr s)).lookup name = some (aliasFor k)) ∧
      (name = protoKey →
        (shortNamesOf (localsOfStr s)).lookup name = none)) ∧
    aliasFor k = ['_', alphaChars.getD (k % 26) 'a'] ∧
    (aliasFor k).length = 2 ∧
    (26 ≤ k → aliasFor k = aliasFor (k - 26)) ∧
    (26 < (localsOfStr s).length →
      aliasFor 26 = aliasFor 0 ∧ (localsOfStr s).get? 26 ≠ (localsOfStr s).get? 0) := by
  refine ⟨?_, rfl, rfl, ?_, ?_⟩
  · intro name hget
    have hnodup : (localsOfStr s).Nodup := dedupGo_nodup _ _
    have hlk := shortNamesGo_lookup (localsOfStr s) 0 k name hnodup hget
    constructor
    · intro hne
      have := hlk.1 hne
      simpa [shortNamesOf] using this
    · intro hp
      have := hlk.2 hp
      simpa [shortNamesOf] using this
  · intro h26
    unfold aliasFor
    rw [Nat.mod_eq_sub_mod h26]
  · intro h27
    refine ⟨rfl, ?_⟩
    intro heq
    have h0 : 0 < (localsOfStr s).length := by omega
    rw [List.get?_eq_get h27, List.get?_eq_get h0] at heq
    have hget := Option.some.inj heq
    have hnodup : (localsOfStr s).Nodup := dedupGo_nodup _ _
    have hfin := (List.Nodup.get_inj_iff hnodup).mp hget
    simp at hfin

theorem c4_witness :
    26 < (localsOfStr c4input).length ∧
    ((∀ name, (localsOfStr c4input).get? 26 = some name →
      (name ≠ protoKey →
        (shortNamesOf (localsOfStr c4input)).lookup name = some (aliasFor 26)) ∧
      (name = protoKey →
        (shortNamesOf (localsOfStr c4input)).lookup name = none)) ∧
    aliasFor 26 = ['_', alphaChars.getD (26 % 26) 'a'] ∧
    (aliasFor 26).length = 2 ∧
    (26 ≤ 26 → aliasFor 26 = aliasFor (26 - 26)) ∧
    (26 < (localsOfStr c4input).length →
      aliasFor 26 = aliasFor 0 ∧
      (localsOfStr c4input).get? 26 ≠ (localsOfStr c4input).get? 0)) :=
  ⟨by decide, c4_alias_assignment c4input 26 (by decide)⟩

/-! ## C10: line well-formedness of the final output -/

theorem noWsPair_tail {x : Char} {t : List Char} (h : noWsPair (x :: t) = true) :
    noWsPair t = true := by
  match t with
  | [] => rfl
  | y :: t2 =>
    simp only [noWsPair, Bool.and_eq_true] at h
    exact h.2

theorem headNotWs_head? {X : List Char} {d : Char} (h : headNotWs X = true)
    (hd : X.head? = some d) : jsWs d = false := by
  match X with
  | [] => simp at hd
  | c :: t =>
    have hc : c = d := by simpa using hd
    subst hc
    simpa [headNotWs] using h

theorem noWsPair_cons' {x : Char} {t : List Char}
    (hpair : ∀ d, t.head? = some d → (jsWs x && jsWs d) = false)
    (ht : noWsPair t = true) : noWsPair (x :: t) = true := by
  match t with
  | [] => rfl
  | y :: t2 =>
    simp only [noWsPair, Bool.and_eq_true]
    refine ⟨?_, ht⟩
    have := hpair y rfl
    simp [this]

theorem noWsPair_cons_head {x : Char} {t : List Char} {d : Char}
    (h : noWsPair (x :: t) = true) (hd : t.head? = some d) :
    (jsWs x && jsWs d) = false := by
  match t with
  | [] => simp at hd
  | y :: t2 =>
    have hy : y = d := by simpa using hd
    subst hy
    simp only [noWsPair, Bool.and_eq_true] at h
    have h1 := h.1
    cases hb : (jsWs x && jsWs y) with
    | false => rfl
    | true =>
      rw [hb] at h1
      exact absurd h1 (by decide)

theorem headNotWs_append_left {X : List Char} (Y : List Char) (h : X ≠ []) :
    headNotWs (X ++ Y) = headNotWs X := by
  match X with
  | [] => exact absurd rfl h
  | c :: t => rfl

theorem noWsPair_append_left : ∀ {a b : List Char},
    noWsPair (a ++ b) = true → noWsPair a = true := by
  intro a
  induction a with
  | nil => intro b _; rfl
  | cons x t ih =>
    intro b h
    match t with
    | [] => rfl
    | y :: t2 =>
      have hpair : (jsWs x && jsWs y) = false :=
        noWsPair_cons_head h (by simp)
      refine noWsPair_cons' ?_ (ih (b := b) (noWsPair_tail h))
      intro d hd
      have hy : y = d := by simpa using hd
      subst hy
      exact hpair

theorem noWsPair_append_right : ∀ {a b : List Char},
    noWsPair (a ++ b) = true → noWsPair b = true := by
  intro a
  induction a with
  | nil => intro b h; exact h
  | cons x t ih => intro b h; exact ih (noWsPair_tail h)

theorem noWsPair_of_suffix {b l : List Char} (hs : b <:+ l)
    (h : noWsPair l = true) : noWsPair b = true := by
  obtain ⟨a, rfl⟩ := hs
  exact noWsPair_append_right h

theorem noWsPair_of_pref {a l : List Char} (hp : a <+: l)
    (h : noWsPair l = true) : noWsPair a = true := by
  obtain ⟨b, rfl⟩ := hp
  exact noWsPair_append_left h

theorem headNotWs_of_pref {a l : List Char} (hp : a <+: l)
    (h : headNotWs l = true) : headNotWs a = true := by
  match a, hp with
  | [], _ => rfl
  | c :: t, hp =>
    obtain ⟨w, hw⟩ := hp
    rw [← hw] at h
    exact h

theorem allNonWs_cons {c : Char} {t : List Char} :
    allNonWs (c :: t) = true ↔ jsWs c = false ∧ allNonWs t = true := by
  simp [allNonWs]

theorem headNotWs_of_allNonWs {l : List Char} (h : allNonWs l = true) :
    headNotWs l = true := by
  match l with
  | [] => rfl
  | c :: t =>
    have := (allNonWs_cons.mp h).1
    simp [headNotWs, this]

theorem allNonWs_reverse {l : List Char} :
    allNonWs l.reverse = allNonWs l := by
  simp [allNonWs]

theorem noWsPair_append_allNonWs : ∀ {a b : List Char}, allNonWs a = true →
    noWsPair b = true → noWsPair (a ++ b) = true := by
  intro a
  induction a with
  | nil => intro b _ hb; exact hb
  | cons x t ih =>
    intro b ha hb
    obtain ⟨hx, ht⟩ := allNonWs_cons.mp ha
    refine noWsPair_cons' ?_ (ih ht hb)
    intro d _
    simp [hx]

theorem noWsPair_of_allNonWs {l : List Char} (h : allNonWs l = true) :
    noWsPair l = true := by
  have := noWsPair_append_allNonWs h (show noWsPair [] = true from rfl)
  simpa using this

/-! Collapse and trim produce well-formed lines. -/

theorem collapse_head_true : ∀ l : List Char,
    headNotWs (collapseWsGo true l) = true := by
  intro l
  induction l with
  | nil => rfl
  | cons c t ih =>
    by_cases hc : jsWs c = true
    · simpa [collapseWsGo, hc] using ih
    · simp only [Bool.not_eq_true] at hc
      simp [collapseWsGo, hc, headNotWs]

theorem collapse_noWsPair : ∀ (l : List Char) (b : Bool),
    noWsPair (collapseWsGo b l) = true := by
  intro l
  induction l with
  | nil => intro b; rfl
  | cons c t ih =>
    intro b
    by_cases hc : jsWs c = true
    · cases b with
      | true => simpa [collapseWsGo, hc] using ih true
      | false =>
        simp only [collapseWsGo, hc, if_true, Bool.false_eq_true, if_false]
        refine noWsPair_cons' ?_ (ih true)
        intro d hd
        have := headNotWs_head? (collapse_head_true t) hd
        simp [this]
    · simp only [Bool.not_eq_true] at hc
      simp only [collapseWsGo, hc, Bool.false_eq_true, if_false]
      refine noWsPair_cons' ?_ (ih false)
      intro d _
      simp [hc]

theorem dropWhile_headNotWs : ∀ l : List Char,
    headNotWs (l.dropWhile jsWs) = true := by
  intro l
  induction l with
  | nil => rfl
  | cons c t ih =>
    by_cases hc : jsWs c = true
    · simpa [List.dropWhile_cons, hc] using ih
    · simp only [Bool.not_eq_true] at hc
      simp [List.dropWhile_cons, hc, headNotWs]

theorem dropTrailingWs_pref : ∀ l : List Char, dropTrailingWs l <+: l := by
  intro l
  induction l with
  | nil => exact List.prefix_rfl
  | cons c t ih =>
    simp only [dropTrailingWs]
    cases hr : dropTrailingWs t with
    | nil =>
      by_cases hc : jsWs c = true
      · simp [hc]
      · simp only [Bool.not_eq_true] at hc
        simp only [hc, Bool.false_eq_true, if_false]
        exact ⟨t, rfl⟩
    | cons y r' =>
      rw [hr] at ih
      obtain ⟨w, hw⟩ := ih
      exact ⟨w, by rw [List.cons_append, hw]⟩

theorem dropTrailingWs_lastrev : ∀ l : List Char,
    headNotWs (dropTrailingWs l).reverse = true := by
  intro l
  induction l with
  | nil => rfl
  | cons c t ih =>
    simp only [dropTrailingWs]
    cases hr : dropTrailingWs t with
    | nil =>
      by_cases hc : jsWs c = true
      · simp [hc, headNotWs]
      · simp only [Bool.not_eq_true] at hc
        simp [hc, headNotWs]
    | cons y r' =>
      rw [hr] at ih
      rw [List.reverse_cons, headNotWs_append_left _ (by simp)]
      exact ih

theorem trimWs_headNotWs (l : List Char) : headNotWs (trimWs l) = true :=
  headNotWs_of_pref (dropTrailingWs_pref _) (dropWhile_headNotWs l)

theorem trimWs_lastrev (l : List Char) : headNotWs (trimWs l).reverse = true :=
  dropTrailingWs_lastrev _

theorem trimWs_noWsPair {l : List Char} (h : noWsPair l = true) :
    noWsPair (trimWs l) = true :=
  noWsPair_of_pref (dropTrailingWs_pref _)
    (noWsPair_of_suffix (List.dropWhile_suffix _) h)

theorem lineOkB_ne_nil {p : List Char} (h : lineOkB p = true) : p ≠ [] := by
  intro e
  subst e
  simp [lineOkB] at h

theorem minify_piece_ok (ln : List Char)
    (h : (trimWs (collapseWs ln)).isEmpty = false) :
    lineOkB (trimWs (collapseWs ln)) = true := by
  unfold lineOkB
  rw [h]
  simp [trimWs_headNotWs, trimWs_lastrev, trimWs_noWsPair (collapse_noWsPair ln false),
    collapseWs]

theorem noWsPair_append_of : ∀ {a b : List Char}, noWsPair a = true →
    noWsPair b = true →
    (headNotWs a.reverse = true ∨ headNotWs b = true) →
    noWsPair (a ++ b) = true := by
  intro a
  induction a with
  | nil => intro b _ hb _; exact hb
  | cons x t ih =>
    intro b ha hb hd
    have hrec : noWsPair (t ++ b) = true := by
      refine ih (noWsPair_tail ha) hb ?_
      match t with
      | [] => exact Or.inl rfl
      | y :: t2 =>
        rcases hd with hd | hd
        · left
          rw [List.reverse_cons, headNotWs_append_left _ (by simp)] at hd
          exact hd
        · exact Or.inr hd
    refine noWsPair_cons' ?_ hrec
    intro d hdd
    match t with
    | [] =>
      rcases hd with hd | hd
      · have : jsWs x = false := by simpa [headNotWs] using hd
        simp [this]
      · have := headNotWs_head? hd (by simpa using hdd)
        simp [this]
    | y :: t2 =>
      have hy : y = d := by simpa using hdd
      subst hy
      exact noWsPair_cons_head ha (by simp)

theorem joinNl_ne_nil : ∀ ps : List (List Char), ps ≠ [] →
    (∀ p ∈ ps, p ≠ []) → joinNl ps ≠ [] := by
  intro ps
  match ps with
  | [] => intro h _; exact absurd rfl h
  | [p] => intro _ hp; exact hp p (List.mem_cons_self _ _)
  | p :: q :: ps' =>
    intro _ hp
    simp only [joinNl]
    simp [List.append_eq_nil]

theorem joinNl_strOk : ∀ ps : List (List Char),
    (∀ p ∈ ps, lineOkB p = true) → strOk (joinNl ps) = true := by
  intro ps
  induction ps with
  | nil => intro _; rfl
  | cons p ps ih =>
    intro h
    have hp := h p (List.mem_cons_self _ _)
    have hrest : ∀ q ∈ ps, lineOkB q = true := fun q hq => h q (List.mem_cons_of_mem _ hq)
    unfold lineOkB at hp
    simp only [Bool.and_eq_true] at hp
    obtain ⟨⟨⟨hpne, hphead⟩, hplast⟩, hpnp⟩ := hp
    have hpne2 : p ≠ [] := by
      intro e
      rw [e] at hpne
      simp at hpne
    match ps with
    | [] =>
      show strOk p = true
      unfold strOk
      simp only [Bool.and_eq_true]
      exact ⟨⟨hphead, hplast⟩, hpnp⟩
    | q :: ps' =>
      have hJ : strOk (joinNl (q :: ps')) = true := ih hrest
      unfold strOk at hJ
      simp only [Bool.and_eq_true] at hJ
      obtain ⟨⟨hJhead, hJlast⟩, hJnp⟩ := hJ
      have hJne : joinNl (q :: ps') ≠ [] := by
        refine joinNl_ne_nil _ (by simp) ?_
        intro r hr
        exact lineOkB_ne_nil (hrest r hr)
      show strOk (p ++ '\n' :: joinNl (q :: ps')) = true
      unfold strOk
      simp only [Bool.and_eq_true]
      refine ⟨⟨?_, ?_⟩, ?_⟩
      · rw [headNotWs_append_left _ hpne2]
        exact hphead
      · rw [List.reverse_append, List.reverse_cons, List.append_assoc,
          headNotWs_append_left _ (by simp [hJne])]
        exact hJlast
      · refine noWsPair_append_of hpnp ?_ (Or.inl hplast)
        refine noWsPair_cons' ?_ hJnp
        intro d hd
        have := headNotWs_head? hJhead hd
        simp [this]

theorem splitNl_cons_nl (X : List Char) : splitNl ('\n' :: X) = [] :: splitNl X := rfl

theorem splitNl_cons_ne {c : Char} (hc : ¬ c = '\n') (X : List Char) :
    splitNl (c :: X) =
      (match splitNl X with
       | h :: r => (c :: h) :: r
       | [] => [[c]]) := by
  have hb : (c == '\n') = false := by simp [hc]
  simp [splitNl, hb]

theorem splitNl_pieces : ∀ l : List Char, noWsPair l = true →
    headNotWs l.reverse = true →
    ∃ h r, splitNl l = h :: r ∧
      (∀ p ∈ r, lineOkB p = true) ∧
      noWsPair h = true ∧ headNotWs h.reverse = true ∧
      (h = [] → l = [] ∨ l.head? = some '\n') ∧
      (∀ c, h.head? = some c → l.head? = some c) := by
  intro l
  induction l with
  | nil =>
    intro _ _
    exact ⟨[], [], rfl, by simp, rfl, rfl, fun _ => Or.inl rfl, by simp⟩
  | cons c t ih =>
    intro hnp hlast
    by_cases hc : c = '\n'
    · subst hc
      match t with
      | [] => exact absurd hlast (by decide)
      | d :: t2 =>
        have hd : jsWs d = false := by
          have hpair := noWsPair_cons_head hnp (show (d :: t2).head? = some d by rfl)
          have h1 : jsWs '\n' = true := by decide
          rw [h1, Bool.true_and] at hpair
          exact hpair
        have hrest_np : noWsPair (d :: t2) = true := noWsPair_tail hnp
        have hrest_last : headNotWs (d :: t2).reverse = true := by
          rw [List.reverse_cons, headNotWs_append_left _ (by simp)] at hlast
          exact hlast
        obtain ⟨h', r', heq, hr', hnp', hlast', hemp', hhead'⟩ :=
          ih hrest_np hrest_last
        refine ⟨[], splitNl (d :: t2), rfl, ?_, rfl, rfl, fun _ => Or.inr rfl, by simp⟩
        rw [heq]
        intro p hp
        rcases List.mem_cons.mp hp with rfl | hpr
        · have hne : p ≠ [] := by
            intro e
            rcases hemp' e with e2 | e2
            · exact absurd e2 (by simp)
            · have : d = '\n' := by simpa using e2
              rw [this] at hd
              exact absurd hd (by decide)
          have hh : headNotWs p = true := by
            match p, hne with
            | e :: h2, _ =>
              have he := hhead' e rfl
              have hde : d = e := by simpa using he
              subst hde
              simp [headNotWs, hd]
          unfold lineOkB
          simp [hne, hh, hnp', hlast']
        · exact hr' p hpr
    · match t with
      | [] =>
        refine ⟨[c], [], ?_, by simp, rfl, ?_, by simp, by simp⟩
        · rw [splitNl_cons_ne hc]
          rfl
        · simpa using hlast
      | d :: t2 =>
        have ht_np := noWsPair_tail hnp
        have ht_last : headNotWs (d :: t2).reverse = true := by
          rw [List.reverse_cons, headNotWs_append_left _ (by simp)] at hlast
          exact hlast
        obtain ⟨h', r', heq, hr', hnp', hlast', hemp', hhead'⟩ := ih ht_np ht_last
        have hsplit : splitNl (c :: d :: t2) = (c :: h') :: r' := by
          rw [splitNl_cons_ne hc, heq]
        refine ⟨c :: h', r', hsplit, hr', ?_, ?_, by simp, by simp⟩
        · refine noWsPair_cons' ?_ hnp'
          intro e he
          have hde : d = e := by simpa using hhead' e he
          subst hde
          exact noWsPair_cons_head hnp (by simp)
        · match h' with
          | [] =>
            have hcw : jsWs c = false := by
              rcases hemp' rfl with e | e
              · exact absurd e (by simp)
              · have : d = '\n' := by simpa using e
                have hpair := noWsPair_cons_head hnp (show (d :: t2).head? = some d by rfl)
                rw [this] at hpair
                have h1 : jsWs '\n' = true := by decide
                rw [h1, Bool.and_true] at hpair
                exact hpair
            simp [headNotWs, hcw]
          | y :: h2 =>
            rw [List.reverse_cons, headNotWs_append_left _ (by simp)]
            exact hlast'

theorem strOk_lines {l : List Char} (h : strOk l = true) (hne : l ≠ []) :
    ∀ p ∈ splitNl l, lineOkB p = true := by
  unfold strOk at h
  simp only [Bool.and_eq_true] at h
  obtain ⟨⟨hh, hl⟩, hnp⟩ := h
  obtain ⟨h0, r0, heq, hr0, hnp0, hlast0, hemp0, hhead0⟩ := splitNl_pieces l hnp hl
  rw [heq]
  intro p hp
  rcases List.mem_cons.mp hp with rfl | hpr
  · have hne0 : p ≠ [] := by
      intro e
      rcases hemp0 e with e2 | e2
      · exact hne e2
      · cases l with
        | nil => exact hne rfl
        | cons x t =>
          have hx : x = '\n' := by simpa using e2
          rw [hx] at hh
          have hfalse : headNotWs ('\n' :: t) = false := rfl
          rw [hfalse] at hh
          exact absurd hh (by decide)
    have hh0 : headNotWs p = true := by
      match p, hne0 with
      | e :: h2, _ =>
        have he := hhead0 e rfl
        cases l with
        | nil => simp at he
        | cons x t =>
          have hx : x = e := by simpa using he
          subst hx
          exact hh
    unfold lineOkB
    simp [hne0, hh0, hnp0, hlast0]
  · exact hr0 p hpr

theorem b64Char_nonws (n : Nat) : jsWs (b64Char n) = false := by
  unfold b64Char
  by_cases hn : n < b64Alpha.length
  · rw [List.getD_eq_getElem _ _ hn]
    have hall : ∀ x ∈ b64Alpha, jsWs x = false := by decide
    exact hall _ (List.getElem_mem hn)
  · rw [List.getD_eq_default _ _ (Nat.le_of_not_lt hn)]
    decide

theorem base64enc_allNonWs : ∀ bs : List Nat, allNonWs (base64enc bs) = true := by
  intro bs
  induction bs using base64enc.induct with
  | case1 => rfl
  | case2 a =>
    simp [base64enc, allNonWs, b64Char_nonws, show jsWs '=' = false from by decide]
  | case3 a b =>
    simp [base64enc, allNonWs, b64Char_nonws, show jsWs '=' = false from by decide]
  | case4 a b c rest ih =>
    simp only [base64enc, allNonWs, List.all_cons, Bool.and_eq_true]
    refine ⟨by simp [b64Char_nonws], by simp [b64Char_nonws], by simp [b64Char_nonws],
      by simp [b64Char_nonws], ?_⟩
    simpa [allNonWs] using ih

theorem b64CallOf_allNonWs (lit : List Char) : allNonWs (b64CallOf lit) = true := by
  unfold b64CallOf toBase64C
  have h1 := base64enc_allNonWs (utf8Enc (unescapeSeq ((lit.drop 1).dropLast)))
  simp only [allNonWs, List.all_append, Bool.and_eq_true] at h1 ⊢
  exact ⟨⟨by decide, h1⟩, by decide⟩

theorem b64CallOf_ne_nil (lit : List Char) : b64CallOf lit ≠ [] := by
  simp [b64CallOf]

theorem b64CallOf_head (lit : List Char) : (b64CallOf lit).head? = some '_' := rfl

/-- One step of the whitespace bookkeeping when stage 6 copies a single
character: the well-formedness facts transfer from the tail to the
output tail. -/
theorem cons_ws_preserves {c : Char} {rest out' : List Char}
    (iha : out' = [] ↔ rest = [])
    (ihe : ∀ d, out'.head? = some d → rest.head? = some d ∨ jsWs d = false)
    (ihb : noWsPair rest = true → noWsPair out' = true)
    (ihd : headNotWs rest.reverse = true → headNotWs out'.reverse = true) :
    ((c :: out') = [] ↔ (c :: rest) = []) ∧
    (∀ d, (c :: out').head? = some d → (c :: rest).head? = some d ∨ jsWs d = false) ∧
    (noWsPair (c :: rest) = true → noWsPair (c :: out') = true) ∧
    (headNotWs (c :: rest) = true → headNotWs (c :: out') = true) ∧
    (headNotWs (c :: rest).reverse = true → headNotWs (c :: out').reverse = true) := by
  refine ⟨by simp, ?_, ?_, ?_, ?_⟩
  · intro d hd
    left
    simp only [List.head?_cons] at hd ⊢
    exact hd
  · intro hl
    refine noWsPair_cons' ?_ (ihb (noWsPair_tail hl))
    intro d hd
    rcases ihe d hd with he | he
    · exact noWsPair_cons_head hl he
    · simp [he]
  · intro hl
    exact hl
  · intro hl
    by_cases hrest : rest = []
    · subst hrest
      have ho : out' = [] := iha.mpr rfl
      subst ho
      exact hl
    · have hout : out' ≠ [] := fun e => hrest (iha.mp e)
      rw [List.reverse_cons, headNotWs_append_left _ (by simp [hout])]
      rw [List.reverse_cons, headNotWs_append_left _ (by simp [hrest])] at hl
      exact ihd hl

theorem stage6Go_preserves (strs : List (List Char)) : ∀ fuel l r,
    stage6Go fuel strs l = some r →
    (r = [] ↔ l = []) ∧
    (∀ c, r.head? = some c → l.head? = some c ∨ jsWs c = false) ∧
    (noWsPair l = true → noWsPair r = true) ∧
    (headNotWs l = true → headNotWs r = true) ∧
    (headNotWs l.reverse = true → headNotWs r.reverse = true) := by
  intro fuel
  induction fuel with
  | zero =>
    intro l r h
    have he : l = r := by simpa [stage6Go] using h
    subst he
    exact ⟨Iff.rfl, fun c hc => Or.inl hc, id, id, id⟩
  | succ fuel ih =>
    intro l r h
    match l with
    | [] =>
      have he : r = [] := by simpa [stage6Go] using h
      subst he
      exact ⟨by simp, by simp, fun _ => rfl, fun _ => rfl, fun _ => rfl⟩
    | c :: rest =>
      simp only [stage6Go] at h
      split at h
      next hp =>
        split at h
        next hp2 =>
          split at h
          next lit hget =>
            split at h
            next out2 hout =>
              have hr : r = b64CallOf lit ++ out2 := (Option.some.inj h).symm
              subst hr
              obtain ⟨iha, ihe, ihb, _, ihd⟩ := ih _ _ hout
              have hsuf : (spanP Char.isDigit ((c :: rest).drop 5)).2.drop 2 <:+ c :: rest := by
                have h1 : (spanP Char.isDigit ((c :: rest).drop 5)).2 <:+ (c :: rest).drop 5 :=
                  ⟨(spanP Char.isDigit ((c :: rest).drop 5)).1, spanP_append _ _⟩
                have h2 : (c :: rest).drop 5 <:+ c :: rest := List.drop_suffix _ _
                exact ((List.drop_suffix 2 _).trans h1).trans h2
              refine ⟨?_, ?_, ?_, ?_, ?_⟩
              · constructor
                · intro e
                  exact absurd e (by simp [b64CallOf])
                · intro e
                  exact absurd e (by simp)
              · intro c0 hc0
                right
                have hh : (b64CallOf lit ++ out2).head? = some '_' := by
                  simp [b64CallOf]
                rw [hh] at hc0
                have : '_' = c0 := Option.some.inj hc0
                subst this
                decide
              · intro hl
                exact noWsPair_append_allNonWs (b64CallOf_allNonWs lit)
                  (ihb (noWsPair_of_suffix hsuf hl))
              · intro _
                rw [headNotWs_append_left _ (b64CallOf_ne_nil lit)]
                exact headNotWs_of_allNonWs (b64CallOf_allNonWs lit)
              · intro hl
                rw [List.reverse_append]
                by_cases hout0 : out2 = []
                · subst hout0
                  simp only [List.reverse_nil, List.nil_append]
                  exact headNotWs_of_allNonWs
                    (by rw [allNonWs_reverse]; exact b64CallOf_allNonWs lit)
                · rw [headNotWs_append_left _ (by simp [hout0])]
                  apply ihd
                  have hremne : (spanP Char.isDigit ((c :: rest).drop 5)).2.drop 2 ≠ [] :=
                    fun e => hout0 (iha.mpr e)
                  have hrevne : ((spanP Char.isDigit ((c :: rest).drop 5)).2.drop 2).reverse ≠ [] :=
                    fun e => hremne (by rwa [List.reverse_eq_nil_iff] at e)
                  obtain ⟨w, hw⟩ := hsuf
                  rw [← hw, List.reverse_append,
                    headNotWs_append_left _ hrevne] at hl
                  exact hl
            next hout => exact absurd h (by simp)
          next hget => exact absurd h (by simp)
        next hp2 =>
          split at h
          next out' hout =>
            have hr : r = c :: out' := (Option.some.inj h).symm
            subst hr
            obtain ⟨iha, ihe, ihb, _, ihd⟩ := ih _ _ hout
            exact cons_ws_preserves iha ihe ihb ihd
          next hout => exact absurd h (by simp)
      next hp =>
        split at h
        next out' hout =>
          have hr : r = c :: out' := (Option.some.inj h).symm
          subst hr
          obtain ⟨iha, ihe, ihb, _, ihd⟩ := ih _ _ hout
          exact cons_ws_preserves iha ihe ihb ihd
        next hout => exact absurd h (by simp)

theorem minify_strOk (x : List Char) : strOk (minifyChars x) = true := by
  unfold minifyChars
  apply joinNl_strOk
  intro p hp
  rw [List.mem_filter] at hp
  obtain ⟨hmem, hfil⟩ := hp
  rw [List.mem_map] at hmem
  obtain ⟨ln, _, rfl⟩ := hmem
  apply minify_piece_ok
  simpa using hfil

/-- C10: whenever the transformer returns normally with a non-empty
result, every line of the result is non-empty, carries no leading or
trailing whitespace and contains no two consecutive whitespace
characters: stage 6 never reintroduces blanks after minification. -/
theorem c10_line_invariant (s out : String) (h : simpleObfuscate s = some out)
    (hne : out ≠ "") : ∀ p ∈ splitNl out.data, lineOkB p = true := by
  by_cases hs : s = ""
  · subst hs
    have he : out = "" := by
      have h2 : (some "" : Option String) = some out := by
        rw [← h]
        rfl
      exact (Option.some.inj h2).symm
    exact absurd he hne
  · simp only [simpleObfuscate, if_neg hs] at h
    obtain ⟨L, hL, hmk⟩ := Option.map_eq_some'.mp h
    have hdata : out.data = L := by rw [← hmk]
    unfold obfChars stage6 at hL
    obtain ⟨iha, _, ihb, ihc, ihd⟩ := stage6Go_preserves (extractStage s.data).2 _ _ _ hL
    have hmin : strOk (preStage6 s.data) = true := by
      unfold preStage6
      exact minify_strOk _
    unfold strOk at hmin
    simp only [Bool.and_eq_true] at hmin
    have hstr : strOk L = true := by
      unfold strOk
      simp only [Bool.and_eq_true]
      exact ⟨⟨ihc hmin.1.1, ihd hmin.1.2⟩, ihb hmin.2⟩
    have hLne : L ≠ [] := by
      intro e
      apply hne
      rw [← hmk, e]
    rw [hdata]
    exact strOk_lines hstr hLne

theorem c10_witness :
    simpleObfuscate "print(1)" = some "print(1)" ∧ ("print(1)" : String) ≠ "" ∧
    ∀ p ∈ splitNl "print(1)".data, lineOkB p = true :=
  ⟨by decide, by decide,
    c10_line_invariant "print(1)" "print(1)" (by decide) (by decide)⟩

theorem c8_witness :
    (¬ '"' ∈ "foo( 1 ,  2 )\n\n  bar(3)\n".data) ∧
    (¬ '\'' ∈ "foo( 1 ,  2 )\n\n  bar(3)\n".data) ∧
    containsSeq "--".data "foo( 1 ,  2 )\n\n  bar(3)\n".data = false ∧
    simpleObfuscate "foo( 1 ,  2 )\n\n  bar(3)\n" =
      some (String.mk (minifyChars "foo( 1 ,  2 )\n\n  bar(3)\n".data)) :=
  ⟨by decide, by decide, by decide,
    c8_amended "foo( 1 ,  2 )\n\n  bar(3)\n" (by decide) (by decide) (by decide)
      (by decide) (by decide)⟩

end Obf
